import Mathlib

/-!
Verification of the two in-memory cache containers of the simple-caches
repository (`src/src/index.ts`): `CacheTTL` (the ExpiringCache) and
`CacheLRU` (the BoundedRecencyCache).  Both classes extend the JavaScript
`Map`, which we model as an association list `List (K × V)` in insertion
order with unique keys maintained structurally by the operations:
`Map.set` updates an existing key in place and otherwise appends at the
end; `Map.delete` removes the key; iteration order is list order.
Wall-clock time (`Date.now()`) is passed to each operation as an explicit
`Int` argument.
-/

section MapModel

variable {K A : Type} [DecidableEq K]

/-- JS `Map.prototype.get`: value of the first entry with the given key. -/
def mapGet (m : List (K × A)) (k : K) : Option A :=
  (m.find? (fun p => decide (p.1 = k))).map Prod.snd

/-- JS `Map.prototype.has`. -/
def mapHas (m : List (K × A)) (k : K) : Bool :=
  m.any (fun p => decide (p.1 = k))

/-- JS `Map.prototype.set`: overwrite in place when the key is present,
otherwise append at the end (most-recent position). -/
def mapSet (m : List (K × A)) (k : K) (v : A) : List (K × A) :=
  if mapHas m k then
    m.map (fun p => if p.1 = k then (k, v) else p)
  else
    m ++ [(k, v)]

/-- JS `Map.prototype.delete` (the state part): remove the key. -/
def mapDelete (m : List (K × A)) (k : K) : List (K × A) :=
  m.filter (fun p => decide (¬ p.1 = k))

end MapModel

section TTLModel

variable {K V : Type} [DecidableEq K]

/-- State of a `CacheTTL` instance: the inherited `Map` store (`entries`),
the private `expirationTimes` map, the sweep interval, and whether the
`setInterval` handle (`expirationInterval`) is currently scheduled. -/
structure CacheTTL (K V : Type) where
  interval : Int
  entries : List (K × V)
  expirationTimes : List (K × Int)
  expirationInterval : Bool
  deriving DecidableEq

/-- `CacheTTL.startExpirationInterval`: schedule the sweep handle when it is
not yet scheduled, the expiry index is non-empty and the interval is
positive; otherwise do nothing. -/
def startExpirationInterval (c : CacheTTL K V) : CacheTTL K V :=
  if c.expirationInterval = false ∧ c.expirationTimes.length > 0 ∧ c.interval > 0 then
    { c with expirationInterval := true }
  else
    c

/-- The `CacheTTL` constructor: empty stores, no handle, then
`startExpirationInterval()` when the interval is positive. -/
def initTTL (interval : Int) : CacheTTL K V :=
  let base : CacheTTL K V :=
    { interval := interval, entries := [], expirationTimes := [],
      expirationInterval := false }
  if interval > 0 then startExpirationInterval base else base

/-- `CacheTTL.set(key, data, ttl)` at clock value `now`: store the value,
record `expirationTime = now + ttl`, and (re)start the sweep handle.
In the source `ttl` defaults to `this.interval`; callers here pass it
explicitly. -/
def setTTL (now : Int) (k : K) (v : V) (ttl : Int) (c : CacheTTL K V) : CacheTTL K V :=
  let c1 := { c with entries := mapSet c.entries k v }
  let expirationTime := now + ttl
  let c2 := { c1 with expirationTimes := mapSet c1.expirationTimes k expirationTime }
  startExpirationInterval c2

/-- `CacheTTL.get(key)` at clock value `now`: the guard
`if (expirationTime && Date.now() > expirationTime)` treats the timestamp
`0` as falsy, so the expired branch fires only for a present, non-zero
timestamp strictly in the past. Returns the result and the new state. -/
def getTTL (now : Int) (k : K) (c : CacheTTL K V) : Option V × CacheTTL K V :=
  match mapGet c.expirationTimes k with
  | some expirationTime =>
    if expirationTime ≠ 0 ∧ now > expirationTime then
      (none, { c with expirationTimes := mapDelete c.expirationTimes k,
                      entries := mapDelete c.entries k })
    else
      (mapGet c.entries k, c)
  | none => (mapGet c.entries k, c)

/-- `CacheTTL.delete(key)`: remove from both stores; return whether the key
was present in the value store (the result of `super.delete`). -/
def deleteTTL (k : K) (c : CacheTTL K V) : Bool × CacheTTL K V :=
  (mapHas c.entries k,
   { c with expirationTimes := mapDelete c.expirationTimes k,
            entries := mapDelete c.entries k })

/-- `CacheTTL.clear()`: empty both stores. The source does not touch
`expirationInterval` here. -/
def clearTTL (c : CacheTTL K V) : CacheTTL K V :=
  { c with expirationTimes := [], entries := [] }

/-- One tick of the `setInterval` callback at clock value `now`: delete
every entry whose timestamp lies strictly in the past from both stores,
then cancel the handle when the expiry index has become empty. -/
def sweepTick (now : Int) (c : CacheTTL K V) : CacheTTL K V :=
  let expiredKeys := (c.expirationTimes.filter (fun p => decide (now > p.2))).map Prod.fst
  let c1 := { c with
    expirationTimes := c.expirationTimes.filter (fun p => decide (¬ now > p.2)),
    entries := c.entries.filter (fun p => decide (¬ p.1 ∈ expiredKeys)) }
  if c1.expirationTimes.length = 0 then
    { c1 with expirationInterval := false }
  else
    c1

/-- A sweep tick can only fire while the handle is scheduled. -/
def sweepFire (now : Int) (c : CacheTTL K V) : CacheTTL K V :=
  if c.expirationInterval then sweepTick now c else c

/-- The public operations of `CacheTTL`, plus the background sweep tick,
each carrying the clock value at which it runs. -/
inductive TTLOp (K V : Type) where
  | set (now : Int) (k : K) (v : V) (ttl : Int)
  | get (now : Int) (k : K)
  | del (k : K)
  | clear
  | sweep (now : Int)

/-- Apply one operation to a `CacheTTL` state. -/
def applyTTL (c : CacheTTL K V) : TTLOp K V → CacheTTL K V
  | .set now k v ttl => setTTL now k v ttl c
  | .get now k => (getTTL now k c).2
  | .del k => (deleteTTL k c).2
  | .clear => clearTTL c
  | .sweep now => sweepFire now c

/-- Run a sequence of operations from a freshly constructed cache. -/
def runTTL (interval : Int) (ops : List (TTLOp K V)) : CacheTTL K V :=
  ops.foldl applyTTL (initTTL interval)

end TTLModel

section LRUModel

variable {K V : Type} [DecidableEq K]

/-- State of a `CacheLRU` instance: the capacity and the inherited `Map`
store in recency order (least recently used first). -/
structure CacheLRU (K V : Type) where
  capacity : Nat
  entries : List (K × V)
  deriving DecidableEq

/-- The `CacheLRU` constructor. -/
def initLRU (capacity : Nat) : CacheLRU K V :=
  { capacity := capacity, entries := [] }

/-- `super.delete(super.keys().next().value)`: delete the first key in
iteration order; on an empty map the iterator yields `undefined` and the
delete is a no-op. -/
def evictOldest (m : List (K × V)) : List (K × V) :=
  match m with
  | [] => m
  | (k0, _) :: _ => mapDelete m k0

/-- `CacheLRU.get(key)`: on a hit, delete and re-insert the entry (moving
it to the most-recently-used end) and return its value. -/
def getLRU (k : K) (c : CacheLRU K V) : Option V × CacheLRU K V :=
  if mapHas c.entries k then
    match mapGet c.entries k with
    | some v => (some v, { c with entries := mapSet (mapDelete c.entries k) k v })
    | none => (none, c)
  else
    (none, c)

/-- `CacheLRU.set(key, value)`: when `size >= capacity`, first delete the
first key in iteration order, then insert. -/
def setLRU (k : K) (v : V) (c : CacheLRU K V) : CacheLRU K V :=
  let entries1 := if c.entries.length ≥ c.capacity then evictOldest c.entries else c.entries
  { c with entries := mapSet entries1 k v }

/-- Inherited `Map.prototype.delete` on a `CacheLRU` (state part). -/
def deleteLRU (k : K) (c : CacheLRU K V) : CacheLRU K V :=
  { c with entries := mapDelete c.entries k }

/-- Inherited `Map.prototype.clear` on a `CacheLRU`. -/
def clearLRU (c : CacheLRU K V) : CacheLRU K V :=
  { c with entries := [] }

/-- The public operations available on a `CacheLRU` instance: its own
`get`/`set` plus the inherited `delete`/`clear`. -/
inductive LRUOp (K V : Type) where
  | get (k : K)
  | set (k : K) (v : V)
  | del (k : K)
  | clear

/-- Apply one operation to a `CacheLRU` state. -/
def applyLRU (c : CacheLRU K V) : LRUOp K V → CacheLRU K V
  | .get k => (getLRU k c).2
  | .set k v => setLRU k v c
  | .del k => deleteLRU k c
  | .clear => clearLRU c

/-- Fold `set(k, f k)` over a list of keys, in order. -/
def runSetsLRU (f : K → V) (ks : List K) (c : CacheLRU K V) : CacheLRU K V :=
  ks.foldl (fun c k => setLRU k (f k) c) c

end LRUModel

/-! ### Lemmas about the Map model -/

section MapLemmas

variable {K A : Type} [DecidableEq K]

theorem mapHas_eq_false_iff {m : List (K × A)} {k : K} :
    mapHas m k = false ↔ ∀ p ∈ m, p.1 ≠ k := by
  simp [mapHas]

theorem mapHas_iff_mem_keys {m : List (K × A)} {k : K} :
    mapHas m k = true ↔ k ∈ m.map Prod.fst := by
  simp [mapHas]

theorem mapGet_mapSet_self (m : List (K × A)) (k : K) (v : A) :
    mapGet (mapSet m k v) k = some v := by
  induction m with
  | nil => simp [mapGet, mapSet, mapHas]
  | cons p rest ih =>
    by_cases hpk : p.1 = k
    · have hhas : mapHas (p :: rest) k = true := by
        simp [mapHas, hpk]
      simp only [mapSet, hhas, if_true, List.map_cons, if_pos hpk]
      simp [mapGet]
    · have hhaseq : mapHas (p :: rest) k = mapHas rest k := by
        simp [mapHas, hpk]
      by_cases hh : mapHas rest k = true
      · have hhas : mapHas (p :: rest) k = true := by rw [hhaseq]; exact hh
        simp only [mapSet, hhas, if_true, List.map_cons, if_neg hpk]
        have ih' := ih
        simp only [mapSet, hh, if_true] at ih'
        simpa [mapGet, hpk] using ih'
      · have hhas : mapHas (p :: rest) k = false := by
          rw [hhaseq]; exact Bool.not_eq_true _ ▸ (by simpa using hh)
        simp only [mapSet, hhas, Bool.false_eq_true, if_false]
        have ih' := ih
        simp only [mapSet, hh, if_false] at ih'
        simpa [mapGet, hpk] using ih'

theorem snd_eq_of_mem_mapSet {m : List (K × A)} {k : K} {v : A} {p : K × A}
    (hp : p ∈ mapSet m k v) (hk : p.1 = k) : p.2 = v := by
  unfold mapSet at hp
  by_cases hhas : mapHas m k = true
  · rw [if_pos hhas] at hp
    obtain ⟨q, _, hq⟩ := List.mem_map.mp hp
    by_cases hqk : q.1 = k
    · rw [if_pos hqk] at hq
      rw [← hq]
    · rw [if_neg hqk] at hq
      exact absurd (hq ▸ hk) hqk
  · rw [if_neg hhas] at hp
    rcases List.mem_append.mp hp with hmem | hmem
    · exact absurd hk (mapHas_eq_false_iff.mp (by simpa using hhas) p hmem)
    · simp at hmem
      rw [hmem]

theorem mapHas_of_mapGet {m : List (K × A)} {k : K} {v : A}
    (h : mapGet m k = some v) : mapHas m k = true := by
  unfold mapGet at h
  rcases hf : m.find? (fun p => decide (p.1 = k)) with _ | p
  · rw [hf] at h; simp at h
  · have hmem := List.mem_of_find?_eq_some hf
    have hpk : p.1 = k := by
      have := List.find?_some hf
      simpa using this
    exact mapHas_iff_mem_keys.mpr (List.mem_map.mpr ⟨p, hmem, hpk⟩)

theorem mapGet_filter_of_pred {m : List (K × A)} {k : K} {e : A} {q : K × A → Bool}
    (h : mapGet m k = some e) (hq : q (k, e) = true) :
    mapGet (m.filter q) k = some e := by
  induction m with
  | nil => simp [mapGet] at h
  | cons p rest ih =>
    by_cases hpk : p.1 = k
    · have hpe : p = (k, e) := by
        unfold mapGet at h
        rw [List.find?_cons_of_pos _ (by simpa using hpk)] at h
        simp at h
        exact Prod.ext hpk h
      rw [hpe]
      rw [List.filter_cons_of_pos hq]
      simp [mapGet]
    · unfold mapGet at h
      rw [List.find?_cons_of_neg _ (by simpa using hpk)] at h
      have ih' := ih h
      by_cases hqp : q p = true
      · rw [List.filter_cons_of_pos hqp]
        unfold mapGet
        rw [List.find?_cons_of_neg _ (by simpa using hpk)]
        exact ih'
      · rw [List.filter_cons_of_neg (by simpa using hqp)]
        exact ih'

theorem mapGet_filter_none {m : List (K × A)} {k : K} {q : K × A → Bool}
    (h : ∀ p ∈ m, p.1 = k → q p = false) :
    mapGet (m.filter q) k = none := by
  induction m with
  | nil => simp [mapGet]
  | cons p rest ih =>
    have ih' := ih (fun p hp => h p (List.mem_cons_of_mem _ hp))
    by_cases hqp : q p = true
    · rw [List.filter_cons_of_pos hqp]
      have hpk : ¬ p.1 = k := by
        intro hpk
        rw [h p (List.mem_cons_self p rest) hpk] at hqp
        simp at hqp
      unfold mapGet
      rw [List.find?_cons_of_neg _ (by simpa using hpk)]
      exact ih'
    · rw [List.filter_cons_of_neg (by simpa using hqp)]
      exact ih'

omit [DecidableEq K] in
theorem keys_filter_comm (m : List (K × A)) (q : K → Bool) :
    (m.filter (fun p => q p.1)).map Prod.fst = (m.map Prod.fst).filter q := by
  induction m with
  | nil => simp
  | cons p rest ih =>
    by_cases hq : q p.1 = true
    · simp [List.filter_cons, hq, ih]
    · simp [List.filter_cons, hq, ih]

theorem keys_mapDelete (m : List (K × A)) (k : K) :
    (mapDelete m k).map Prod.fst = (m.map Prod.fst).filter (fun x => decide (¬ x = k)) := by
  unfold mapDelete
  exact keys_filter_comm m (fun x => decide (¬ x = k))

theorem keys_mapSet (m : List (K × A)) (k : K) (v : A) :
    (mapSet m k v).map Prod.fst =
      if mapHas m k then m.map Prod.fst else m.map Prod.fst ++ [k] := by
  unfold mapSet
  by_cases hhas : mapHas m k = true
  · rw [if_pos hhas, if_pos hhas, List.map_map]
    apply List.map_congr_left
    intro p _
    by_cases hpk : p.1 = k
    · simp [hpk]
    · simp [hpk]
  · rw [if_neg hhas, if_neg hhas]
    simp

theorem length_mapSet_le (m : List (K × A)) (k : K) (v : A) :
    (mapSet m k v).length ≤ m.length + 1 := by
  unfold mapSet
  by_cases hhas : mapHas m k = true
  · rw [if_pos hhas]; simp
  · rw [if_neg hhas]; simp

theorem length_mapDelete_le (m : List (K × A)) (k : K) :
    (mapDelete m k).length ≤ m.length :=
  List.length_filter_le _ m

theorem length_mapDelete_lt {m : List (K × A)} {k : K}
    (h : mapHas m k = true) : (mapDelete m k).length < m.length := by
  unfold mapHas at h
  obtain ⟨p, hp, hpk⟩ := List.any_eq_true.mp h
  apply List.length_filter_lt_length_iff_exists.mpr
  exact ⟨p, hp, by simpa using of_decide_eq_true hpk⟩

end MapLemmas

theorem mem_of_mapGet {K A : Type} [DecidableEq K] {m : List (K × A)} {k : K} {e : A}
    (h : mapGet m k = some e) : (k, e) ∈ m := by
  unfold mapGet at h
  rcases hf : m.find? (fun p => decide (p.1 = k)) with _ | p
  · rw [hf] at h; simp at h
  · rw [hf] at h
    simp at h
    have hpk : p.1 = k := by simpa using List.find?_some hf
    have hpe : p = (k, e) := Prod.ext hpk h
    exact hpe ▸ List.mem_of_find?_eq_some hf

/-! ### Field-preservation lemmas for the CacheTTL operations -/

theorem startExpirationInterval_entries {K V : Type} (c : CacheTTL K V) :
    (startExpirationInterval c).entries = c.entries := by
  unfold startExpirationInterval
  split <;> rfl

theorem startExpirationInterval_expirationTimes {K V : Type} (c : CacheTTL K V) :
    (startExpirationInterval c).expirationTimes = c.expirationTimes := by
  unfold startExpirationInterval
  split <;> rfl

theorem setTTL_entries {K V : Type} [DecidableEq K]
    (now : Int) (k : K) (v : V) (ttl : Int) (c : CacheTTL K V) :
    (setTTL now k v ttl c).entries = mapSet c.entries k v := by
  simp [setTTL, startExpirationInterval_entries]

theorem setTTL_expirationTimes {K V : Type} [DecidableEq K]
    (now : Int) (k : K) (v : V) (ttl : Int) (c : CacheTTL K V) :
    (setTTL now k v ttl c).expirationTimes = mapSet c.expirationTimes k (now + ttl) := by
  simp [setTTL, startExpirationInterval_expirationTimes]

theorem sweepTick_expirationTimes {K V : Type} [DecidableEq K] (now : Int) (c : CacheTTL K V) :
    (sweepTick now c).expirationTimes
      = c.expirationTimes.filter (fun p => decide (¬ now > p.2)) := by
  simp only [sweepTick]
  split <;> rfl

theorem sweepTick_entries {K V : Type} [DecidableEq K] (now : Int) (c : CacheTTL K V) :
    (sweepTick now c).entries
      = c.entries.filter (fun p => decide (¬ p.1 ∈
          (c.expirationTimes.filter (fun p => decide (now > p.2))).map Prod.fst)) := by
  simp only [sweepTick]
  split <;> rfl

/-! ### Claim C3: the promote-then-evict scenario -/

/-- C3: on a `CacheLRU` of capacity 2, the sequence
`set("a",1); set("b",2); get("a"); set("c",3)` leaves exactly the entries
`a:1` and `c:3`: the `get` moved `"a"` to the most-recently-used end, so
the third `set` evicted `"b"`, the key first in iteration order. -/
theorem lru_scenario_promote_then_evict :
    (setLRU "c" 3 ((getLRU "a" (setLRU "b" 2 (setLRU "a" 1 (initLRU 2)))).2)).entries
      = [("a", 1), ("c", 3)] := by
  decide

/-! ### Claim C6: capacity zero leaves one entry -/

/-- C6: on a `CacheLRU` of capacity 0, `set` always takes the eviction
branch; on an empty cache the eviction deletes a nonexistent oldest entry
(a no-op) and the insert then leaves exactly the one new entry, so the
cache holds one entry, permanently one over its nominal capacity. -/
theorem lru_capacity_zero_one_over {K V : Type} [DecidableEq K]
    (c : CacheLRU K V) (k : K) (v : V) (hcap : c.capacity = 0) :
    (c.entries = [] → (setLRU k v c).entries = [(k, v)]) ∧
    (c.entries.length ≤ 1 → (setLRU k v c).entries.length = 1) := by
  constructor
  · intro h
    simp [setLRU, hcap, h, evictOldest, mapSet, mapHas]
  · intro h
    rcases hm : c.entries with _ | ⟨⟨k0, v0⟩, _ | ⟨q, rest⟩⟩
    · simp [setLRU, hcap, hm, evictOldest, mapSet, mapHas]
    · simp [setLRU, hcap, hm, evictOldest, mapDelete, mapSet, mapHas]
    · rw [hm] at h
      simp at h
  
/-- Witness for C6 at a concrete input: a fresh capacity-0 cache. -/
theorem lru_capacity_zero_one_over_witness :
    (initLRU (K := Nat) (V := Nat) 0).capacity = 0 ∧
    (setLRU 0 7 (initLRU (K := Nat) (V := Nat) 0)).entries = [(0, 7)] :=
  ⟨rfl, (lru_capacity_zero_one_over (initLRU 0) 0 7 rfl).1 rfl⟩

/-! ### Claim C9: a zero expiry timestamp is never lazily expired -/

/-- C9: in `CacheTTL.get` the guard `if (expirationTime && ...)` tests the
timestamp for truthiness, so an entry whose stored expiry timestamp is
exactly 0 is never removed by the lazy check: `get` returns the stored
value at every clock value and leaves the state unchanged. -/
theorem ttl_zero_expiry_never_lazily_expired {K V : Type} [DecidableEq K]
    (c : CacheTTL K V) (k : K) (v : V) (now : Int)
    (h1 : mapGet c.expirationTimes k = some 0)
    (h2 : mapGet c.entries k = some v) :
    getTTL now k c = (some v, c) := by
  simp only [getTTL, h1]
  rw [if_neg (by simp), h2]

/-- Witness for C9: the state reached by `set` at `Date.now() = -10` with
`ttl = 10` stores expiry timestamp 0; `get` at clock value 1000000 still
returns the value. -/
theorem ttl_zero_expiry_never_lazily_expired_witness :
    mapGet (setTTL (-10) 0 7 10 (initTTL (K := Nat) (V := Nat) 0)).expirationTimes 0
        = some 0 ∧
    (getTTL 1000000 0 (setTTL (-10) 0 7 10 (initTTL (K := Nat) (V := Nat) 0))).1
        = some 7 := by
  refine ⟨by decide, ?_⟩
  rw [ttl_zero_expiry_never_lazily_expired
    (setTTL (-10) 0 7 10 (initTTL 0)) 0 7 1000000 (by decide) (by decide)]

/-! ### Claim C8: set-then-get round trip for both containers -/

/-- C8: `set(k, v)` immediately followed by `get(k)` returns `v` for both
containers: for `CacheTTL` at any clock value up to `now + ttl` (the entry
has not yet expired), and for `CacheLRU` unconditionally (a `set` always
leaves its own key present, so the key cannot have been evicted). -/
theorem set_then_get_returns_value {K V : Type} [DecidableEq K]
    (c : CacheTTL K V) (d : CacheLRU K V)
    (now now' ttl : Int) (k j : K) (v w : V) :
    (now' ≤ now + ttl → (getTTL now' k (setTTL now k v ttl c)).1 = some v) ∧
    (getLRU j (setLRU j w d)).1 = some w := by
  constructor
  · intro hle
    have he : mapGet (setTTL now k v ttl c).expirationTimes k = some (now + ttl) := by
      rw [setTTL_expirationTimes]
      exact mapGet_mapSet_self _ _ _
    have hv : mapGet (setTTL now k v ttl c).entries k = some v := by
      rw [setTTL_entries]
      exact mapGet_mapSet_self _ _ _
    simp only [getTTL, he]
    rw [if_neg (by rintro ⟨-, hgt⟩; omega), hv]
  · have hget : mapGet (setLRU j w d).entries j = some w := by
      simp only [setLRU]
      exact mapGet_mapSet_self _ _ _
    have hhas : mapHas (setLRU j w d).entries j = true := mapHas_of_mapGet hget
    simp [getLRU, hhas, hget]

/-- Witness for C8 at concrete inputs. -/
theorem set_then_get_returns_value_witness :
    ((3 : Int) ≤ 0 + 5) ∧
    (getTTL 3 0 (setTTL 0 0 1 5 (initTTL (K := Nat) (V := Nat) 0))).1 = some 1 ∧
    (getLRU 1 (setLRU 1 2 (initLRU (K := Nat) (V := Nat) 2))).1 = some 2 := by
  have h := set_then_get_returns_value (initTTL (K := Nat) (V := Nat) 0)
    (initLRU (K := Nat) (V := Nat) 2) 0 3 5 0 1 1 2
  exact ⟨by decide, h.1 (by decide), h.2⟩

/-! ### Claim C7: negative ttl (corrected) -/

/-- C7 counterexample: the claim "any subsequent get returns absent" fails
when `now + ttl` lands exactly on 0. With `Date.now() = 5` and
`ttl = -5` the stored expiry timestamp is 0, which the truthiness guard in
`get` treats as falsy, so a get at clock value 100 still returns the
value rather than absent. -/
theorem ttl_negative_ttl_cex :
    (getTTL 100 0 (setTTL 5 0 7 (-5) (initTTL (K := Nat) (V := Nat) 0))).1 = some 7 := by
  decide

/-- C7 amended: `set` with a negative ttl raises no error (it is a total
function), stores the already-past expiry timestamp `now + ttl < now`,
and every get at a clock value `now' ≥ now` returns absent — provided the
stored timestamp is not exactly 0, the one value the truthiness guard
skips. -/
theorem ttl_negative_ttl_reads_absent {K V : Type} [DecidableEq K]
    (c : CacheTTL K V) (k : K) (v : V) (now ttl now' : Int)
    (httl : ttl < 0) (hne : now + ttl ≠ 0) (hmono : now ≤ now') :
    mapGet (setTTL now k v ttl c).expirationTimes k = some (now + ttl) ∧
    now + ttl < now ∧
    (getTTL now' k (setTTL now k v ttl c)).1 = none := by
  have he : mapGet (setTTL now k v ttl c).expirationTimes k = some (now + ttl) := by
    rw [setTTL_expirationTimes]
    exact mapGet_mapSet_self _ _ _
  refine ⟨he, by omega, ?_⟩
  simp only [getTTL, he]
  rw [if_pos ⟨hne, by omega⟩]

/-- Witness for the amended C7 at a concrete input. -/
theorem ttl_negative_ttl_reads_absent_witness :
    ((-3 : Int) < 0) ∧ ((10 : Int) + (-3) ≠ 0) ∧
    (getTTL 10 0 (setTTL 10 0 7 (-3) (initTTL (K := Nat) (V := Nat) 0))).1 = none :=
  ⟨by decide, by decide,
    (ttl_negative_ttl_reads_absent (initTTL 0) 0 7 10 (-3) 10
      (by decide) (by decide) (by decide)).2.2⟩

/-! ### Claim C1: lifecycle of the sweep handle (corrected) -/

/-- C1 counterexample: `clear()` does not cancel a running sweep handle.
On a cache with interval 5, after a `set` the handle is scheduled, and it
is still scheduled immediately after `clear()` — contradicting the claim
that clear always leaves no SweepTask running. (It is cancelled only by
the next tick of the sweep itself, which finds the index empty.) -/
theorem ttl_clear_keeps_handle_cex :
    (clearTTL (setTTL 0 0 0 5 (initTTL (K := Nat) (V := Nat) 5))).expirationInterval
      = true := by
  decide

/-- C1 amended: none of `clear`, `delete` or the lazy expiry in `get`
cancels the sweep handle — they leave `expirationInterval` exactly as it
was; the handle is cancelled only by a sweep tick that finds the expiry
index empty after removing expired entries. -/
theorem ttl_handle_cancelled_only_by_sweep {K V : Type} [DecidableEq K]
    (c : CacheTTL K V) (k : K) (now : Int) :
    (clearTTL c).expirationInterval = c.expirationInterval ∧
    ((deleteTTL k c).2).expirationInterval = c.expirationInterval ∧
    ((getTTL now k c).2).expirationInterval = c.expirationInterval ∧
    ((sweepTick now c).expirationTimes.length = 0 →
      (sweepTick now c).expirationInterval = false) := by
  refine ⟨rfl, rfl, ?_, ?_⟩
  · simp only [getTTL]
    rcases h : mapGet c.expirationTimes k with _ | e
    · simp [h]
    · simp only [h]
      split <;> rfl
  · intro h
    rw [sweepTick_expirationTimes] at h
    simp only [sweepTick]
    rw [if_pos h]

/-- Witness for the amended C1: a sweep tick at clock value 10 empties the
index of a cache whose one entry expired at 5, and cancels the handle. -/
theorem ttl_handle_cancelled_only_by_sweep_witness :
    (sweepTick 10 (setTTL 0 0 0 5 (initTTL (K := Nat) (V := Nat) 5))).expirationTimes.length = 0 ∧
    (sweepTick 10 (setTTL 0 0 0 5 (initTTL (K := Nat) (V := Nat) 5))).expirationInterval = false :=
  ⟨by decide,
    (ttl_handle_cancelled_only_by_sweep (setTTL 0 0 0 5 (initTTL 5)) 0 10).2.2.2
      (by decide)⟩

/-! ### Claim C2: lazy expiry boundary (corrected) -/

/-- C2 counterexample: the claim says `get` returns absent at any time at
or after `e = now + ttl`, but the source tests `Date.now() > expirationTime`
strictly, so a get at exactly `e` still returns the stored value: insert at
clock 0 with ttl 50, get at clock 50 yields the value. -/
theorem ttl_get_at_expiry_cex :
    (getTTL 50 0 (setTTL 0 0 1 50 (initTTL (K := Nat) (V := Nat) 0))).1 = some 1 := by
  decide

/-- C2 amended: for an insertion at nonnegative clock value `now` with
`ttl > 0` and `e = now + ttl`, `get(k)` returns the stored value at any
time up to and including `e`, and returns absent at any time strictly
after `e` — the cut is strict, not "at or after" — and this holds whether
or not a sweep tick fired in between. -/
theorem ttl_get_strict_expiry_boundary {K V : Type} [DecidableEq K]
    (c : CacheTTL K V) (k : K) (v : V) (now ttl now' ts : Int)
    (hnow : 0 ≤ now) (httl : 0 < ttl) :
    ((now' ≤ now + ttl → (getTTL now' k (setTTL now k v ttl c)).1 = some v) ∧
     (now + ttl < now' → (getTTL now' k (setTTL now k v ttl c)).1 = none)) ∧
    ((ts ≤ now' → now' ≤ now + ttl →
        (getTTL now' k (sweepFire ts (setTTL now k v ttl c))).1 = some v) ∧
     (now + ttl < now' →
        (getTTL now' k (sweepFire ts (setTTL now k v ttl c))).1 = none)) := by
  set c1 := setTTL now k v ttl c with hc1
  have he : mapGet c1.expirationTimes k = some (now + ttl) := by
    rw [hc1, setTTL_expirationTimes]
    exact mapGet_mapSet_self _ _ _
  have hv : mapGet c1.entries k = some v := by
    rw [hc1, setTTL_entries]
    exact mapGet_mapSet_self _ _ _
  have he0 : now + ttl ≠ 0 := by omega
  have hAllE : ∀ p ∈ c1.expirationTimes, p.1 = k → p.2 = now + ttl := by
    rw [hc1, setTTL_expirationTimes]
    exact fun p hp hk => snd_eq_of_mem_mapSet hp hk
  have hsome : ∀ t', t' ≤ now + ttl → (getTTL t' k c1).1 = some v := by
    intro t' hle
    simp only [getTTL, he]
    rw [if_neg (by rintro ⟨-, hgt⟩; omega), hv]
  have hnone : ∀ t', now + ttl < t' → (getTTL t' k c1).1 = none := by
    intro t' hgt
    simp only [getTTL, he]
    rw [if_pos ⟨he0, by omega⟩]
  have hkeep : ¬ ts > now + ttl →
      mapGet (sweepTick ts c1).expirationTimes k = some (now + ttl) := by
    intro hts
    rw [sweepTick_expirationTimes]
    exact mapGet_filter_of_pred he (by simpa using hts)
  refine ⟨⟨fun h => hsome now' h, fun h => hnone now' h⟩, ?_, ?_⟩
  · intro hts hle
    unfold sweepFire
    by_cases hflag : c1.expirationInterval = true
    · rw [if_pos hflag]
      have hkNotExpired :
          ¬ k ∈ (c1.expirationTimes.filter (fun p => decide (ts > p.2))).map Prod.fst := by
        intro hmem
        obtain ⟨p, hp, hpk⟩ := List.mem_map.mp hmem
        obtain ⟨hpmem, hpexp⟩ := List.mem_filter.mp hp
        rw [hAllE p hpmem hpk] at hpexp
        simp only [decide_eq_true_eq] at hpexp
        omega
      have hventry : mapGet (sweepTick ts c1).entries k = some v := by
        rw [sweepTick_entries]
        exact mapGet_filter_of_pred hv (by simpa using hkNotExpired)
      simp only [getTTL, hkeep (by omega)]
      rw [if_neg (by rintro ⟨-, hgt⟩; omega), hventry]
    · rw [if_neg hflag]
      exact hsome now' hle
  · intro hgt
    unfold sweepFire
    by_cases hflag : c1.expirationInterval = true
    · rw [if_pos hflag]
      by_cases hts : ts > now + ttl
      · have hgone : mapGet (sweepTick ts c1).expirationTimes k = none := by
          rw [sweepTick_expirationTimes]
          apply mapGet_filter_none
          intro p hp hpk
          rw [hAllE p hp hpk]
          simp only [decide_eq_false_iff_not, not_not]
          omega
        have hkmem :
            k ∈ (c1.expirationTimes.filter (fun p => decide (ts > p.2))).map Prod.fst := by
          apply List.mem_map.mpr
          refine ⟨(k, now + ttl), ?_, rfl⟩
          apply List.mem_filter.mpr
          exact ⟨mem_of_mapGet he, by simpa using hts⟩
        have hvgone : mapGet (sweepTick ts c1).entries k = none := by
          rw [sweepTick_entries]
          apply mapGet_filter_none
          intro p hp hpk
          rw [hpk]
          simp [hkmem]
        simp only [getTTL, hgone, hvgone]
      · simp only [getTTL, hkeep hts]
        rw [if_pos ⟨he0, by omega⟩]
    · rw [if_neg hflag]
      exact hnone now' hgt

/-- Witness for the amended C2 at concrete inputs: insert at clock 0 with
ttl 50 on an interval-5 cache; get at clock 50 (exactly the expiry) returns
the value, with and without an intervening sweep at clock 10. -/
theorem ttl_get_strict_expiry_boundary_witness :
    ((0 : Int) ≤ 0) ∧ ((0 : Int) < 50) ∧
    (getTTL 50 0 (setTTL 0 0 1 50 (initTTL (K := Nat) (V := Nat) 5))).1 = some 1 ∧
    (getTTL 50 0 (sweepFire 10 (setTTL 0 0 1 50 (initTTL (K := Nat) (V := Nat) 5)))).1
      = some 1 := by
  have h := ttl_get_strict_expiry_boundary (initTTL (K := Nat) (V := Nat) 5)
    0 1 0 50 50 10 (by decide) (by decide)
  exact ⟨by decide, by decide, h.1.1 (by decide), h.2.1 (by decide) (by decide)⟩

/-! ### Claim C10: the capacity bound is preserved by every operation -/

theorem length_evictOldest_lt {K V : Type} [DecidableEq K] {m : List (K × V)}
    (h : m ≠ []) : (evictOldest m).length < m.length := by
  match m with
  | [] => exact absurd rfl h
  | (k0, v0) :: rest =>
    show (mapDelete ((k0, v0) :: rest) k0).length < _
    apply length_mapDelete_lt
    simp [mapHas]

/-- C10: on a `CacheLRU` with capacity at least 1, each public operation
(`get`, `set`, the inherited `delete` and `clear`) keeps the entry count
at or below the capacity, and leaves the capacity itself unchanged. -/
theorem lru_ops_preserve_capacity_bound {K V : Type} [DecidableEq K]
    (c : CacheLRU K V) (op : LRUOp K V)
    (hcap : 1 ≤ c.capacity) (hlen : c.entries.length ≤ c.capacity) :
    (applyLRU c op).entries.length ≤ c.capacity ∧
    (applyLRU c op).capacity = c.capacity := by
  cases op with
  | get k =>
    refine ⟨?_, ?_⟩
    · by_cases hhas : mapHas c.entries k = true
      · rcases hg : mapGet c.entries k with _ | v
        · simpa [applyLRU, getLRU, hhas, hg] using hlen
        · have hd := length_mapDelete_lt hhas
          have hs := length_mapSet_le (mapDelete c.entries k) k v
          simp only [applyLRU, getLRU, hhas, if_true, hg]
          omega
      · simpa [applyLRU, getLRU, hhas] using hlen
    · by_cases hhas : mapHas c.entries k = true
      · rcases hg : mapGet c.entries k with _ | v
        · simp [applyLRU, getLRU, hhas, hg]
        · simp [applyLRU, getLRU, hhas, hg]
      · simp [applyLRU, getLRU, hhas]
  | set k v =>
    refine ⟨?_, rfl⟩
    by_cases hge : c.entries.length ≥ c.capacity
    · have hne : c.entries ≠ [] := by
        intro h0
        rw [h0] at hge
        simp at hge
        omega
      have hev := length_evictOldest_lt (m := c.entries) hne
      have hs := length_mapSet_le (evictOldest c.entries) k v
      simp only [applyLRU, setLRU, if_pos hge]
      omega
    · have hs := length_mapSet_le c.entries k v
      simp only [applyLRU, setLRU, if_neg hge]
      omega
  | del k =>
    exact ⟨le_trans (length_mapDelete_le c.entries k) hlen, rfl⟩
  | clear =>
    exact ⟨by simp [applyLRU, clearLRU], rfl⟩

/-- Witness for C10 at a concrete input. -/
theorem lru_ops_preserve_capacity_bound_witness :
    1 ≤ (initLRU (K := Nat) (V := Nat) 1).capacity ∧
    (applyLRU (initLRU (K := Nat) (V := Nat) 1) (.set 0 0)).entries.length
      ≤ (initLRU (K := Nat) (V := Nat) 1).capacity :=
  ⟨by decide,
    (lru_ops_preserve_capacity_bound (initLRU 1) (.set 0 0) (by decide) (by decide)).1⟩

/-! ### Claim C4: filling past capacity evicts exactly the first key -/

theorem runSetsLRU_fill {K V : Type} [DecidableEq K] (f : K → V) :
    ∀ (ks : List K) (c : CacheLRU K V),
      (c.entries.map Prod.fst ++ ks).Nodup →
      c.entries.length + ks.length ≤ c.capacity →
      (runSetsLRU f ks c).entries = c.entries ++ ks.map (fun k => (k, f k)) ∧
      (runSetsLRU f ks c).capacity = c.capacity := by
  intro ks
  induction ks with
  | nil =>
    intro c hnd hlen
    simp [runSetsLRU]
  | cons k rest ih =>
    intro c hnd hlen
    have hlt : ¬ c.entries.length ≥ c.capacity := by
      simp only [List.length_cons] at hlen
      omega
    have hknotmem : k ∉ c.entries.map Prod.fst := by
      intro hk
      exact (List.nodup_append.mp hnd).2.2 hk (List.mem_cons_self k rest)
    have hhas : mapHas c.entries k = false := by
      cases h : mapHas c.entries k
      · rfl
      · exact absurd (mapHas_iff_mem_keys.mp h) hknotmem
    have hset : (setLRU k (f k) c).entries = c.entries ++ [(k, f k)] := by
      simp [setLRU, hlt, mapSet, hhas]
    have hcap : (setLRU k (f k) c).capacity = c.capacity := rfl
    have hnd' : ((setLRU k (f k) c).entries.map Prod.fst ++ rest).Nodup := by
      rw [hset]
      simpa [List.append_assoc] using hnd
    have hlen' : (setLRU k (f k) c).entries.length + rest.length
        ≤ (setLRU k (f k) c).capacity := by
      rw [hset, hcap]
      simp only [List.length_append, List.length_cons, List.length_nil] at hlen ⊢
      omega
    obtain ⟨h1, h2⟩ := ih (setLRU k (f k) c) hnd' hlen'
    have hrun : runSetsLRU f (k :: rest) c = runSetsLRU f rest (setLRU k (f k) c) := rfl
    refine ⟨?_, by rw [hrun, h2, hcap]⟩
    rw [hrun, h1, hset]
    simp [List.append_assoc]

/-- C4: on a `CacheLRU` of capacity `C ≥ 1`, inserting `C + 1` distinct
keys in order with no intervening get leaves exactly the last `C` keys
(the second through the last), each with its value, and the first key is
gone; furthermore any `set` performed while the entry count is at or above
capacity first deletes exactly the first entry in iteration order. -/
theorem lru_fill_then_overflow_evicts_first {K V : Type} [DecidableEq K]
    (C : Nat) (ks : List K) (z : K) (f : K → V)
    (hC : 1 ≤ C) (hnd : (ks ++ [z]).Nodup) (hlen : ks.length = C) :
    (runSetsLRU f (ks ++ [z]) (initLRU C)).entries
        = (ks ++ [z]).tail.map (fun k => (k, f k)) ∧
    (∀ (c : CacheLRU K V) (k : K) (v : V), c.capacity ≤ c.entries.length →
      (setLRU k v c).entries = mapSet (evictOldest c.entries) k v) := by
  constructor
  · have hndks : ks.Nodup := hnd.sublist (List.sublist_append_left ks [z])
    obtain ⟨hfill, hfillcap⟩ := runSetsLRU_fill f ks (initLRU C)
      (by simpa [initLRU] using hndks) (by simp [initLRU, hlen])
    have hsplit : runSetsLRU f (ks ++ [z]) (initLRU C)
        = setLRU z (f z) (runSetsLRU f ks (initLRU C)) := by
      unfold runSetsLRU
      rw [List.foldl_append]
      rfl
    rcases hks : ks with _ | ⟨k1, kt⟩
    · rw [hks] at hlen
      simp at hlen
      omega
    · rw [hks] at hfill hfillcap hndks hnd hlen hsplit
      set c1 := runSetsLRU f (k1 :: kt) (initLRU C) with hc1
      have hc1len : c1.entries.length ≥ c1.capacity := by
        rw [hfill, hfillcap]
        simp only [List.length_cons] at hlen
        simp [initLRU]
        omega
      have hk1kt : k1 ∉ kt := by
        have := List.nodup_append.mp hnd
        exact (List.nodup_cons.mp this.1).1
      have hzks : z ∉ k1 :: kt := by
        intro hz
        exact (List.nodup_append.mp hnd).2.2 hz (List.mem_singleton.mpr rfl)
      have hev : evictOldest c1.entries = kt.map (fun k => (k, f k)) := by
        rw [hfill]
        simp only [initLRU, List.nil_append, List.map_cons]
        show mapDelete ((k1, f k1) :: kt.map (fun k => (k, f k))) k1 = _
        unfold mapDelete
        rw [List.filter_cons_of_neg (by simp)]
        apply List.filter_eq_self.mpr
        intro p hp
        obtain ⟨x, hx, rfl⟩ := List.mem_map.mp hp
        simp only [decide_eq_true_eq]
        intro hxk
        exact hk1kt (hxk ▸ hx)
      have hzhas : mapHas (kt.map (fun k => (k, f k))) z = false := by
        cases h : mapHas (kt.map (fun k => (k, f k))) z
        · rfl
        · have hz := mapHas_iff_mem_keys.mp h
          simp only [List.map_map] at hz
          obtain ⟨x, hx, hxz⟩ := List.mem_map.mp hz
          exact absurd (hxz ▸ List.mem_cons_of_mem k1 hx) hzks
      rw [hsplit]
      simp only [setLRU, if_pos hc1len, hev]
      simp [mapSet, hzhas]
  · intro c k v hge
    simp only [setLRU, if_pos hge]

/-- Witness for C4 at a concrete input: capacity 1, keys 0 then 1. -/
theorem lru_fill_then_overflow_evicts_first_witness :
    (runSetsLRU (fun k => k) ([0] ++ [1]) (initLRU (K := Nat) (V := Nat) 1)).entries
      = [(1, 1)] := by
  have h := lru_fill_then_overflow_evicts_first 1 [0] 1 (fun k => k)
    (by decide) (by decide) (by decide)
  simpa using h.1

/-! ### Claim C5: value store and expiry index stay in lockstep -/

theorem initTTL_entries {K V : Type} (interval : Int) :
    (initTTL interval : CacheTTL K V).entries = [] := by
  by_cases h : interval > 0
  · simp [initTTL, h, startExpirationInterval_entries]
  · simp [initTTL, h]

theorem initTTL_expirationTimes {K V : Type} (interval : Int) :
    (initTTL interval : CacheTTL K V).expirationTimes = [] := by
  by_cases h : interval > 0
  · simp [initTTL, h, startExpirationInterval_expirationTimes]
  · simp [initTTL, h]

/-- Key lemma for the sweep: under distinct keys, filtering the entries by
"key not among the expired keys" and filtering the expiry index by "not
expired" keep exactly the same keys. -/
theorem keys_sweep_filter {K V : Type} [DecidableEq K]
    (L : List (K × Int)) (E : List (K × V)) (now : Int)
    (hkeys : E.map Prod.fst = L.map Prod.fst)
    (hnd : (L.map Prod.fst).Nodup) :
    (E.filter (fun p => decide (¬ p.1 ∈
        (L.filter (fun p => decide (now > p.2))).map Prod.fst))).map Prod.fst
      = (L.filter (fun p => decide (¬ now > p.2))).map Prod.fst := by
  have hpoint : ∀ p ∈ L, (decide (¬ now > p.2) : Bool)
      = decide (¬ p.1 ∈ (L.filter (fun p => decide (now > p.2))).map Prod.fst) := by
    intro p hp
    rw [decide_eq_decide]
    constructor
    · intro hnotexp hmem
      obtain ⟨p', hp', hp'k⟩ := List.mem_map.mp hmem
      obtain ⟨hp'mem, hp'exp⟩ := List.mem_filter.mp hp'
      rw [List.inj_on_of_nodup_map hnd hp'mem hp hp'k] at hp'exp
      simp only [decide_eq_true_eq] at hp'exp
      exact hnotexp hp'exp
    · intro hnotmem hexp
      exact hnotmem
        (List.mem_map.mpr ⟨p, List.mem_filter.mpr ⟨hp, by simpa using hexp⟩, rfl⟩)
  calc (E.filter (fun p => decide (¬ p.1 ∈
          (L.filter (fun p => decide (now > p.2))).map Prod.fst))).map Prod.fst
      = (E.map Prod.fst).filter (fun x => decide (¬ x ∈
          (L.filter (fun p => decide (now > p.2))).map Prod.fst)) :=
        keys_filter_comm E (fun x => decide (¬ x ∈
          (L.filter (fun p => decide (now > p.2))).map Prod.fst))
    _ = (L.map Prod.fst).filter (fun x => decide (¬ x ∈
          (L.filter (fun p => decide (now > p.2))).map Prod.fst)) := by rw [hkeys]
    _ = (L.filter (fun p => decide (¬ p.1 ∈
          (L.filter (fun p => decide (now > p.2))).map Prod.fst))).map Prod.fst :=
        (keys_filter_comm L (fun x => decide (¬ x ∈
          (L.filter (fun p => decide (now > p.2))).map Prod.fst))).symm
    _ = (L.filter (fun p => decide (¬ now > p.2))).map Prod.fst :=
        congrArg (List.map Prod.fst)
          (List.filter_congr (fun p hp => (hpoint p hp).symm))

/-- One step of the lockstep invariant: every operation, and every sweep
tick, preserves "the two stores hold the same keys in the same order, with
no duplicates". -/
theorem applyTTL_preserves_lockstep {K V : Type} [DecidableEq K]
    (c : CacheTTL K V) (op : TTLOp K V)
    (hkeys : c.entries.map Prod.fst = c.expirationTimes.map Prod.fst)
    (hnd : (c.expirationTimes.map Prod.fst).Nodup) :
    (applyTTL c op).entries.map Prod.fst
        = (applyTTL c op).expirationTimes.map Prod.fst ∧
    ((applyTTL c op).expirationTimes.map Prod.fst).Nodup := by
  cases op with
  | set now k v ttl =>
    have hh : mapHas c.entries k = mapHas c.expirationTimes k := by
      rw [Bool.eq_iff_iff, mapHas_iff_mem_keys, mapHas_iff_mem_keys, hkeys]
    constructor
    · show (setTTL now k v ttl c).entries.map Prod.fst
          = (setTTL now k v ttl c).expirationTimes.map Prod.fst
      rw [setTTL_entries, setTTL_expirationTimes, keys_mapSet, keys_mapSet, hh, hkeys]
    · show ((setTTL now k v ttl c).expirationTimes.map Prod.fst).Nodup
      rw [setTTL_expirationTimes, keys_mapSet]
      by_cases h : mapHas c.expirationTimes k = true
      · rw [if_pos h]
        exact hnd
      · rw [if_neg (by simpa using h)]
        have hkmem : k ∉ c.expirationTimes.map Prod.fst :=
          fun hm => h (mapHas_iff_mem_keys.mpr hm)
        refine List.nodup_append.mpr ⟨hnd, List.nodup_singleton k, ?_⟩
        intro a ha hb
        simp at hb
        exact hkmem (hb ▸ ha)
  | get now k =>
    simp only [applyTTL]
    rcases hg : mapGet c.expirationTimes k with _ | e
    · simp only [getTTL, hg]
      exact ⟨hkeys, hnd⟩
    · simp only [getTTL, hg]
      split
      · constructor
        · show (mapDelete c.entries k).map Prod.fst
              = (mapDelete c.expirationTimes k).map Prod.fst
          rw [keys_mapDelete, keys_mapDelete, hkeys]
        · show ((mapDelete c.expirationTimes k).map Prod.fst).Nodup
          rw [keys_mapDelete]
          exact hnd.filter _
      · exact ⟨hkeys, hnd⟩
  | del k =>
    constructor
    · show (mapDelete c.entries k).map Prod.fst
          = (mapDelete c.expirationTimes k).map Prod.fst
      rw [keys_mapDelete, keys_mapDelete, hkeys]
    · show ((mapDelete c.expirationTimes k).map Prod.fst).Nodup
      rw [keys_mapDelete]
      exact hnd.filter _
  | clear =>
    exact ⟨rfl, List.nodup_nil⟩
  | sweep now =>
    simp only [applyTTL, sweepFire]
    split
    · constructor
      · rw [sweepTick_entries, sweepTick_expirationTimes]
        exact keys_sweep_filter c.expirationTimes c.entries now hkeys hnd
      · rw [sweepTick_expirationTimes]
        exact hnd.sublist (List.Sublist.map Prod.fst (List.filter_sublist _))
    · exact ⟨hkeys, hnd⟩

/-- C5: starting from a freshly constructed `CacheTTL`, after any sequence
of completed public operations (`set`, `get`, `delete`, `clear`) and sweep
ticks, the value store and the `expirationTimes` index hold exactly the
same keys (in the same order), so their sizes agree:
`|values| == |expiryIndex|`. -/
theorem ttl_stores_in_lockstep {K V : Type} [DecidableEq K]
    (interval : Int) (ops : List (TTLOp K V)) :
    (runTTL interval ops).entries.map Prod.fst
        = (runTTL interval ops).expirationTimes.map Prod.fst ∧
    (runTTL interval ops).entries.length
        = (runTTL interval ops).expirationTimes.length := by
  have main : ∀ (rest : List (TTLOp K V)) (c : CacheTTL K V),
      c.entries.map Prod.fst = c.expirationTimes.map Prod.fst →
      (c.expirationTimes.map Prod.fst).Nodup →
      (rest.foldl applyTTL c).entries.map Prod.fst
          = (rest.foldl applyTTL c).expirationTimes.map Prod.fst ∧
      ((rest.foldl applyTTL c).expirationTimes.map Prod.fst).Nodup := by
    intro rest
    induction rest with
    | nil => exact fun c h hnd => ⟨h, hnd⟩
    | cons op rest ih =>
      intro c h hnd
      obtain ⟨h', hnd'⟩ := applyTTL_preserves_lockstep c op h hnd
      exact ih (applyTTL c op) h' hnd'
  obtain ⟨hk, -⟩ := main ops (initTTL interval)
    (by simp [initTTL_entries, initTTL_expirationTimes])
    (by rw [initTTL_expirationTimes]; exact List.nodup_nil)
  refine ⟨hk, ?_⟩
  have hlen := congrArg List.length hk
  simpa using hlen
